import Mathlib

/-!
Verification development for the Motley Fool earnings-call transcript scraper
(`scrape_transcripts.py`).

The Python module is shallowly embedded below.  HTTP transport, the HTML
parser and the filesystem are external collaborators: a fetched page is
modelled as the data the code reads out of it (the first `h1` text and the
list of paragraph/heading texts of the content area, each already stripped,
as returned by `get_text(strip=True)`), a transport or parse failure as an
`Except.error`, and the store directory as the list of `*.json` filenames it
contains.  `hashlib.md5(...).hexdigest()` is an external pure function and is
passed in as a parameter `h : String → String`; the code under verification
only ever uses its first six characters, in exactly two places.  Python
strings are embedded as Lean `String` (`len` = number of code points =
`String.length`); the regex and case-mapping helpers below implement the
exact ASCII semantics of the patterns appearing in the source, which are all
ASCII.
-/

set_option autoImplicit false
set_option maxRecDepth 20000

namespace Scraper

/-! ## Basic string helpers (embedding Python string primitives) -/

/-- `startsL pat s`: `s` begins with `pat` (used to embed substring search). -/
def startsL : List Char → List Char → Bool
  | [], _ => true
  | _ :: _, [] => false
  | a :: as, b :: bs => a == b && startsL as bs

/-- `containsL pat s = true` iff `pat` occurs as a contiguous run in `s`:
the embedding of Python's `pat in s` on strings. -/
def containsL (pat : List Char) : List Char → Bool
  | [] => pat.isEmpty
  | b :: bs => startsL pat (b :: bs) || containsL pat bs

/-- Python `pat in s` for strings. -/
def inStr (pat s : String) : Bool := containsL pat.data s.data

/-- Python `\s` for the ASCII whitespace characters. -/
def pyIsSpace (c : Char) : Bool :=
  c = ' ' || c = '\t' || c = '\n' || c = '\x0d' || c = '\x0b' || c = '\x0c'

/-- ASCII lower-casing of one character (Python `str.lower` on ASCII). -/
def lowerChar (c : Char) : Char :=
  if c.isUpper then Char.ofNat (c.toNat + 32) else c

/-- ASCII upper-casing of one character (Python `str.upper` on ASCII). -/
def upperChar (c : Char) : Char :=
  if c.isLower then Char.ofNat (c.toNat - 32) else c

/-- Python `s.lower()` (ASCII). -/
def lowerStr (s : String) : String := String.mk (s.data.map lowerChar)

/-- Python `s.upper()` (ASCII). -/
def upperStr (s : String) : String := String.mk (s.data.map upperChar)

/-- Python `s.strip()` (ASCII whitespace). -/
def pyStrip (s : String) : String :=
  String.mk (((s.data.dropWhile pyIsSpace).reverse.dropWhile pyIsSpace).reverse)

/-- Python `s[:n]` (slicing is by code point, like `String.data`). -/
def strTake (n : Nat) (s : String) : String := String.mk (s.data.take n)

/-- Python `"\n\n".join(parts)`. -/
def joinNN : List String → String
  | [] => ""
  | [s] => s
  | s :: t => s ++ "\n\n" ++ joinNN t

/-- Accumulator for Python `s.split()` (split on whitespace runs, no empties);
`cur` is the current word, reversed. -/
def wordsAux : List Char → List Char → List (List Char)
  | cur, [] => if cur.isEmpty then [] else [cur.reverse]
  | cur, c :: t =>
    if pyIsSpace c then
      if cur.isEmpty then wordsAux [] t else cur.reverse :: wordsAux [] t
    else wordsAux (c :: cur) t

/-- Python `s.split()` (whitespace split, used for `word_count`). -/
def pySplit (s : String) : List String := (wordsAux [] s.data).map String.mk

/-- Accumulator for splitting on a single separator character
(Python `s.split('/')`); `cur` is the current field, reversed. -/
def splitCharAux (sep : Char) : List Char → List Char → List (List Char)
  | cur, [] => [cur.reverse]
  | cur, c :: t =>
    if c = sep then cur.reverse :: splitCharAux sep [] t
    else splitCharAux sep (c :: cur) t

/-- Python `s.split(sep)` for a one-character separator. -/
def splitChar (sep : Char) (cs : List Char) : List (List Char) :=
  splitCharAux sep [] cs

/-- Python `s.rstrip('/')`. -/
def rstripSlash (cs : List Char) : List Char :=
  (cs.reverse.dropWhile (fun c => c = '/')).reverse

/-- One step of Python `str.title()`; `prevCased` records whether the
previous character was a (ASCII) letter. -/
def titleGo (prevCased : Bool) : List Char → List Char
  | [] => []
  | c :: t =>
    (if c.isAlpha then (if prevCased then lowerChar c else upperChar c) else c)
      :: titleGo c.isAlpha t

/-- Value of an ASCII digit character. -/
def digitVal (c : Char) : Nat := c.toNat - '0'.toNat

/-- Python `int(...)` on a string of decimal digits. -/
def natOfDigits (ds : List Char) : Nat :=
  ds.foldl (fun n c => n * 10 + digitVal c) 0

/-! ## Regex embeddings

Each Python `re.search` call in the source scans the subject left to right
and matches at the first position where the pattern fits; the functions
below implement exactly the per-position conditions of the concrete
patterns in the source (after resolving greedy/lazy backtracking, which for
these patterns is fully determined — see the comments). -/

/-- Does `\(([A-Z]{1,5})\)` match at this position?  The greedy `{1,5}`
with the following `\)` can only succeed on the full uppercase run after
`(` (a shorter take faces an uppercase letter where `)` is required), so
the condition is: run of 1–5 uppercase letters after `(`, then `)`. -/
def parenTickerAt (cs : List Char) : Bool :=
  match cs with
  | '(' :: rest =>
    let tickRun := rest.takeWhile Char.isUpper
    decide (1 ≤ tickRun.length) && decide (tickRun.length ≤ 5)
      && ((rest.drop tickRun.length).headD ' ' == ')')
  | _ => false

/-- `re.search(r'\(([A-Z]{1,5})\)', title)`, returning group 1: leftmost
position where `parenTickerAt` holds. -/
def findTickerL : List Char → Option (List Char)
  | [] => none
  | c :: rest =>
    if parenTickerAt (c :: rest) then some (rest.takeWhile Char.isUpper)
    else findTickerL rest

/-- `re.search(r'\(([A-Z]{1,5})\)', title)` on strings. -/
def findTicker (title : String) : Option String :=
  (findTickerL title.data).map String.mk

/-- Does `\s*\([A-Z]{1,5}\)` match at this position (any number of
whitespace characters, then the parenthesised ticker)? -/
def wsParen : List Char → Bool
  | [] => false
  | c :: tl => parenTickerAt (c :: tl) || (pyIsSpace c && wsParen tl)

/-- Matching `^(.+?)\s*\([A-Z]{1,5}\)`: the lazy `.+?` takes the shortest
nonempty prefix (without a newline, since `.` excludes `'\n'`) after which
`\s*\([A-Z]{1,5}\)` matches.  `acc` is the group-1 candidate built so far
(`wsParen [] = false`, so an exhausted subject means no match). -/
def findCompanyAux (acc : List Char) : List Char → Option (List Char)
  | [] => none
  | c :: tl =>
    if acc ≠ [] ∧ wsParen (c :: tl) then some acc
    else if c = '\n' then none
    else findCompanyAux (acc ++ [c]) tl

/-- `re.search(r'^(.+?)\s*\([A-Z]{1,5}\)', title)`, group 1, then
`.strip()` as in the source. -/
def findCompanyS (title : String) : Option String :=
  (findCompanyAux [] title.data).map (fun g => pyStrip (String.mk g))

/-- Does `Q(\d)\s+(\d{4})` match at this position?  The greedy `\s+` must
consume the whole whitespace run (stopping earlier leaves a whitespace
character where a digit is required), after which exactly four digits are
taken. -/
def qyAt (cs : List Char) : Option (Nat × Nat) :=
  match cs with
  | 'Q' :: d :: rest =>
    if d.isDigit then
      let w := (rest.takeWhile pyIsSpace).length
      if 1 ≤ w then
        let ds := (rest.drop w).take 4
        if ds.length = 4 && ds.all Char.isDigit then
          some (digitVal d, natOfDigits ds)
        else none
      else none
    else none
  | _ => none

/-- `re.search(r'Q(\d)\s+(\d{4})', title)`: leftmost match, groups as
`(quarter, year)` already converted by `int(...)`. -/
def findQYL : List Char → Option (Nat × Nat)
  | [] => none
  | c :: tl =>
    match qyAt (c :: tl) with
    | some r => some r
    | none => findQYL tl

/-- Quarter/year extraction from the page title. -/
def findQY (title : String) : Option (Nat × Nat) := findQYL title.data

/-- Does `/(\d{4})/(\d{2})/(\d{2})/` match at this position?  Groups are
returned as strings, as they are interpolated unconverted into the date. -/
def dateAt (cs : List Char) : Option (String × String × String) :=
  match cs with
  | '/' :: rest =>
    let y := rest.take 4
    if y.length = 4 && y.all Char.isDigit then
      match rest.drop 4 with
      | '/' :: r2 =>
        let m := r2.take 2
        if m.length = 2 && m.all Char.isDigit then
          match r2.drop 2 with
          | '/' :: r4 =>
            let d := r4.take 2
            if d.length = 2 && d.all Char.isDigit then
              match r4.drop 2 with
              | '/' :: _ => some (String.mk y, String.mk m, String.mk d)
              | _ => none
            else none
          | _ => none
        else none
      | _ => none
    else none
  | _ => none

/-- `re.search(r'/(\d{4})/(\d{2})/(\d{2})/', href)`: leftmost match. -/
def findDateL : List Char → Option (String × String × String)
  | [] => none
  | c :: tl =>
    match dateAt (c :: tl) with
    | some r => some r
    | none => findDateL tl

/-! ## Section classification and transcript assembly (`scrape_transcript`) -/

/-- The `current_section` classification state. -/
inductive Sect where
  | intro
  | prepared
  | qa
deriving DecidableEq, Repr

/-- Does the lower-cased node text match one of the Q&A markers? -/
def isQaMarker (text : String) : Bool :=
  let tl := lowerStr text
  inStr "q&a" tl || inStr "question-and-answer" tl || inStr "questions and answers" tl

/-- Does the lower-cased node text match one of the prepared-remarks markers? -/
def isPreparedMarker (text : String) : Bool :=
  let tl := lowerStr text
  inStr "prepared remarks" tl || inStr "opening remarks" tl

/-- The `if`/`elif` section-transition chain of the source. -/
def sectStep (sec : Sect) (text : String) : Sect :=
  if isQaMarker text then .qa
  else if isPreparedMarker text then .prepared
  else sec

/-- State of the paragraph loop: current section and the three accumulators
`transcript_parts`, `prepared_remarks`, `qa_section`. -/
structure ScrapeAcc where
  sec : Sect
  parts : List String
  prepared : List String
  qa : List String
deriving DecidableEq, Repr

/-- One iteration of the `for p in paragraphs` loop: skip empty texts,
update the section, then append to `transcript_parts` and to the `qa` or
`prepared` accumulator according to the *updated* section. -/
def paraStep (st : ScrapeAcc) (text : String) : ScrapeAcc :=
  if text = "" then st
  else
    let sec := sectStep st.sec text
    { sec
      parts := st.parts ++ [text]
      prepared := if sec = .qa then st.prepared else st.prepared ++ [text]
      qa := if sec = .qa then st.qa ++ [text] else st.qa }

/-- The whole paragraph loop, from `current_section = "intro"` and empty
accumulators. -/
def processParagraphs (ps : List String) : ScrapeAcc :=
  ps.foldl paraStep ⟨.intro, [], [], []⟩

/-- The dict returned by `scrape_transcript` (all keys are always present;
`year`/`quarter` hold Python `None` when the title regex fails). -/
structure TranscriptRecord where
  ticker : String
  company : String
  title : String
  year : Option Nat
  quarter : Option Nat
  url : String
  transcript : String
  prepared_remarks : String
  qa_section : String
  source : String
  word_count : Nat
deriving DecidableEq, Repr

/-- What the code reads out of a fetched article page: the first `h1`'s
stripped text if present, and the paragraph/heading texts of the content
area (`none` when no `main`/`article`/`div.tailwind-article-body` is found). -/
structure Page where
  h1 : Option String
  content : Option (List String)
deriving DecidableEq, Repr

/-- Body of `scrape_transcript` after a successful fetch and parse. -/
def scrape_core (url : String) (page : Page) : Option TranscriptRecord :=
  let title := page.h1.getD ""
  let ticker := (findTicker title).getD "UNKNOWN"
  let company := (findCompanyS title).getD ""
  let qy := findQY title
  match page.content with
  | none => none
  | some paragraphs =>
    let st := processParagraphs paragraphs
    let full_transcript := joinNN st.parts
    if full_transcript = "" || full_transcript.length < 500 then none
    else
      some
        { ticker
          company
          title
          year := qy.map (fun p => p.2)
          quarter := qy.map (fun p => p.1)
          url
          transcript := full_transcript
          prepared_remarks := joinNN st.prepared
          qa_section := joinNN st.qa
          source := "motley-fool"
          word_count := (pySplit full_transcript).length }

/-- `scrape_transcript`: a transport error or parse exception on the page
yields `None`; otherwise the pure body above runs. -/
def scrape_transcript (url : String) (resp : Except String Page) :
    Option TranscriptRecord :=
  match resp with
  | .error _ => none
  | .ok page => scrape_core url page

/-! ## Listing page (`get_recent_transcripts`) -/

/-- `BASE_URL` from the configuration block. -/
def BASE_URL : String := "https://www.fool.com"

/-- An `<a href=...>` element as the code reads it: its `href` attribute
and `get_text(strip=True)`. -/
structure Link where
  href : String
  text : String
deriving DecidableEq, Repr

/-- One entry of the listing result (`url`/`title`/`ticker`/`date` dict). -/
structure Item where
  url : String
  title : String
  ticker : String
  date : String
deriving DecidableEq, Repr

/-- Lookup in the `url_to_link` dict (Python `href in d` / `d[href]`). -/
def lookupD : List (String × Link) → String → Option Link
  | [], _ => none
  | p :: t, x => if p.1 = x then some p.2 else lookupD t x

/-- Assignment to an existing key of a Python dict: the value changes, the
key keeps its original insertion position. -/
def updateD (d : List (String × Link)) (x : String) (v : Link) :
    List (String × Link) :=
  d.map (fun p => if p.1 = x then (x, v) else p)

/-- One iteration of the `for link in links` grouping loop:
`if href not in url_to_link or (title and not url_to_link[href].get_text(strip=True))`. -/
def dictStep (d : List (String × Link)) (l : Link) : List (String × Link) :=
  if l.href = "" then d
  else
    match lookupD d l.href with
    | none => d ++ [(l.href, l)]
    | some cur => if l.text ≠ "" ∧ cur.text = "" then updateD d l.href l else d

/-- The whole `url_to_link` grouping loop (Python dicts preserve insertion
order, embedded as an ordered association list). -/
def buildDict (links : List Link) : List (String × Link) :=
  links.foldl dictStep []

/-- `urllib.parse.urljoin(BASE_URL, href)` for the href shapes the listing
page produces: absolute URLs pass through, site-relative paths are joined
onto the base. -/
def pyUrljoin (href : String) : String :=
  if inStr "://" href then href else BASE_URL ++ href

/-- The slug-derived fallback title:
`href.rstrip('/').split('/')[-1].replace('-', ' ').title()`. -/
def slugFromHref (href : String) : String :=
  String.mk (titleGo false
    (((splitChar '/' (rstripSlash href.data)).getLastD []).map
      (fun c => if c = '-' then ' ' else c)))

/-- Body of the emitting loop for one `(href, link)` pair: full URL, title
(link text or slug), ticker guess, date guess. -/
def mkItem (today : String) (href : String) (link : Link) : Item :=
  let full_url := pyUrljoin href
  let title := if link.text = "" then slugFromHref href else link.text
  let ticker := (findTicker title).getD "UNKNOWN"
  let date :=
    match findDateL href.data with
    | some (y, m, d) => y ++ "-" ++ m ++ "-" ++ d
    | none => today
  { url := full_url, title, ticker, date }

/-- The emitting loop over `url_to_link.items()`: breaks once `limit`
entries have been accumulated, otherwise appends exactly one entry. -/
def emitLoop (today : String) (limit : Nat) (acc : List Item) :
    List (String × Link) → List Item
  | [] => acc
  | (href, link) :: rest =>
    if limit ≤ acc.length then acc
    else emitLoop today limit (acc ++ [mkItem today href link]) rest

/-- `get_recent_transcripts`: on a transport error the `except` branch
returns `[]`; otherwise filter the anchors by path pattern, group by URL
preferring links with text, and emit at most `limit` entries.  `today` is
`datetime.now().strftime("%Y-%m-%d")`, the fallback date. -/
def get_recent_transcripts (resp : Except String (List Link)) (limit : Nat)
    (today : String) : List Item :=
  match resp with
  | .error _ => []
  | .ok all_links =>
    let links := all_links.filter (fun l => inStr "/earnings/call-transcript" l.href)
    emitLoop today limit [] (buildDict links)

/-! ## Spec-side description of the listing dedup (for claim C8)

These definitions follow the words of the specification ("deduplicates by
URL preferring the first occurrence with non-empty link text", "at most
`limit` entries, in document order") and are proved equal to the dict-based
code above. -/

/-- First element satisfying a predicate. -/
def findL {α : Type} (p : α → Bool) : List α → Option α
  | [] => none
  | a :: t => if p a then some a else findL p t

/-- The hrefs of a link list, empty ones dropped. -/
def filtHrefs (links : List Link) : List String :=
  (links.map (fun l => l.href)).filter (fun s => decide (s ≠ ""))

/-- Keep the first occurrence of each element, in order; `seen` collects
elements already emitted. -/
def dedupFirstAux (seen : List String) : List String → List String
  | [] => []
  | x :: t =>
    if x ∈ seen then dedupFirstAux seen t
    else x :: dedupFirstAux (x :: seen) t

/-- The distinct hrefs of a link list, in document order of first occurrence. -/
def orderedKeys (links : List Link) : List String :=
  dedupFirstAux [] (filtHrefs links)

/-- All occurrences of one href, in document order. -/
def occsOf (links : List Link) (x : String) : List Link :=
  links.filter (fun l => decide (l.href = x))

/-- The representative kept for one URL: the first occurrence with
non-empty link text, else the first occurrence. -/
def pickRepD (links : List Link) (x : String) : Link :=
  match findL (fun l => decide (l.text ≠ "")) (occsOf links x) with
  | some l => l
  | none => (occsOf links x).headD ⟨x, ""⟩

/-- Spec-side dedup: one entry per URL, in first-occurrence order, each
represented by `pickRepD`. -/
def dedupPrefSpec (links : List Link) : List (String × Link) :=
  (orderedKeys links).map (fun x => (x, pickRepD links x))

/-! ## Persistence, dedup check and the runner -/

/-- `hashlib.md5(url.encode()).hexdigest()[:6]`, with the hexdigest
function `h` passed in as an external collaborator. -/
def urlHash6 (h : String → String) (url : String) : String :=
  strTake 6 (h url)

/-- Python `f"{v}"` on a value that is either an int or `None`. -/
def optNatStr : Option Nat → String
  | none => "None"
  | some n => toString n

/-- `generate_filename`.  The records produced by `scrape_transcript`
always carry the `ticker`/`year`/`quarter`/`url` keys (`year`/`quarter`
possibly as Python `None`), so the `.get` defaults (`"UNKNOWN"`,
`datetime.now().year`, `0`, `""`) never apply on this path; `None` values
render as the string `"None"` in the f-string. -/
def generate_filename (h : String → String) (t : TranscriptRecord) : String :=
  t.ticker ++ "_" ++ optNatStr t.year ++ "_Q" ++ optNatStr t.quarter
    ++ "_" ++ urlHash6 h t.url ++ ".json"

/-- `transcript_exists`: is the 6-character URL-hash prefix a substring of
any `*.json` filename in the store directory?  The store is embedded as
the list of those filenames. -/
def transcript_exists (h : String → String) (url : String)
    (store : List String) : Bool :=
  store.any (fun f => inStr (urlHash6 h url) f)

/-- State threaded through the main loop of `run`: the store directory
contents and the accumulated `saved_files`. -/
structure RunResult where
  store : List String
  saved : List String
deriving DecidableEq, Repr

/-- One iteration of the main loop of `run`: skip empty URLs, skip targets
whose hash already appears in the store, otherwise fetch; on success
`save_transcript` writes `TRANSCRIPTS_DIR / filename` and the path is
appended to `saved_files`. -/
def processItem (h : String → String) (pages : String → Except String Page)
    (st : RunResult) (item : Item) : RunResult :=
  if item.url = "" then st
  else if transcript_exists h item.url st.store then st
  else
    match scrape_transcript item.url (pages item.url) with
    | none => st
    | some t =>
      { store := st.store ++ [generate_filename h t]
        saved := st.saved ++ ["transcripts/" ++ generate_filename h t] }

/-- The main loop of `run` over the (already filtered and truncated)
target list. -/
def runLoop (h : String → String) (pages : String → Except String Page)
    (st : RunResult) (items : List Item) : RunResult :=
  items.foldl (processItem h pages) st

/-- The `if tickers:` filter (`None` and the empty list are both falsy in
Python, so both leave the list unfiltered). -/
def filterTickers (tickers : Option (List String)) (items : List Item) :
    List Item :=
  match tickers with
  | none => items
  | some ts =>
    if ts.isEmpty then items
    else items.filter (fun t => (ts.map upperStr).contains t.ticker)

/-- `run`: list `limit * 2` candidates, optionally filter by ticker, then
process the first `limit` of them against the store. -/
def run (h : String → String) (pages : String → Except String Page)
    (lresp : Except String (List Link)) (today : String) (limit : Nat)
    (tickers : Option (List String)) (store : List String) : RunResult :=
  let transcript_list := get_recent_transcripts lresp (limit * 2) today
  let transcript_list := filterTickers tickers transcript_list
  runLoop h pages ⟨store, []⟩ (transcript_list.take limit)

/-- The final status line of `run`:
`f"\nScraping complete. Saved {len(saved_files)} new transcripts."`. -/
def runReport (savedCount : Nat) : String :=
  "\nScraping complete. Saved " ++ toString savedCount ++ " new transcripts."

/-! ## General lemmas -/

theorem startsL_self_append (pat suf : List Char) :
    startsL pat (pat ++ suf) = true := by
  induction pat with
  | nil => rfl
  | cons a as ih => simp [startsL, ih]

theorem containsL_of_mid (pat pre suf : List Char) :
    containsL pat (pre ++ pat ++ suf) = true := by
  induction pre with
  | nil =>
    cases pat with
    | nil => cases suf <;> simp [containsL, startsL]
    | cons p pt =>
      simp only [List.nil_append, List.cons_append, containsL, Bool.or_eq_true]
      exact Or.inl (startsL_self_append (p :: pt) suf)
  | cons c cs ih =>
    simp only [List.cons_append, containsL, Bool.or_eq_true]
    exact Or.inr (by simpa [List.append_assoc] using ih)

theorem sectStep_ne_intro (sec : Sect) (t : String) (h : sec ≠ .intro) :
    sectStep sec t ≠ .intro := by
  unfold sectStep
  split
  · decide
  · split
    · decide
    · exact h

theorem foldl_paraStep_ne_intro (ts : List String) (st : ScrapeAcc)
    (h : st.sec ≠ .intro) : (ts.foldl paraStep st).sec ≠ .intro := by
  induction ts generalizing st with
  | nil => exact h
  | cons t ts ih =>
    rw [List.foldl_cons]
    apply ih
    unfold paraStep
    split
    · exact h
    · exact sectStep_ne_intro st.sec t h

theorem foldl_paraStep_qa (ts : List String) (st : ScrapeAcc)
    (hsec : st.sec = .qa)
    (hm : ∀ t ∈ ts, t ≠ "" → (isQaMarker t = true ∨ isPreparedMarker t = false)) :
    (ts.foldl paraStep st).sec = .qa ∧
    (ts.foldl paraStep st).qa = st.qa ++ ts.filter (fun t => decide (t ≠ "")) := by
  induction ts generalizing st with
  | nil => simpa using hsec
  | cons t ts ih =>
    by_cases ht : t = ""
    · subst ht
      have := ih st hsec (fun x hx hxe => hm x (List.mem_cons_of_mem _ hx) hxe)
      simpa [paraStep] using this
    · have hsec' : sectStep st.sec t = .qa := by
        by_cases hq : isQaMarker t = true
        · simp [sectStep, hq]
        · rcases hm t (List.mem_cons_self t ts) ht with h1 | h2
          · exact absurd h1 hq
          · simp [sectStep, Bool.eq_false_iff.mpr (fun hc => hq hc), h2, hsec]
      have hstep : paraStep st t = ⟨.qa, st.parts ++ [t], st.prepared, st.qa ++ [t]⟩ := by
        unfold paraStep
        rw [if_neg ht]
        simp [hsec']
      rw [List.foldl_cons, hstep]
      have hrest := ih ⟨.qa, st.parts ++ [t], st.prepared, st.qa ++ [t]⟩ rfl
        (fun x hx hxe => hm x (List.mem_cons_of_mem _ hx) hxe)
      refine ⟨hrest.1, ?_⟩
      rw [hrest.2]
      simp [ht]

theorem processItem_saved_le (h : String → String)
    (pages : String → Except String Page) (st : RunResult) (item : Item) :
    (processItem h pages st item).saved.length ≤ st.saved.length + 1 := by
  unfold processItem
  split
  · exact Nat.le_succ _
  · split
    · exact Nat.le_succ _
    · split
      · exact Nat.le_succ _
      · simp

theorem runLoop_saved_le (h : String → String)
    (pages : String → Except String Page) :
    ∀ (items : List Item) (st : RunResult),
      (runLoop h pages st items).saved.length ≤ st.saved.length + items.length := by
  intro items
  induction items with
  | nil => intro st; simp [runLoop]
  | cons item rest ih =>
    intro st
    show (runLoop h pages (processItem h pages st item) rest).saved.length ≤ _
    calc (runLoop h pages (processItem h pages st item) rest).saved.length
        ≤ (processItem h pages st item).saved.length + rest.length := ih _
      _ ≤ (st.saved.length + 1) + rest.length :=
          Nat.add_le_add_right (processItem_saved_le h pages st item) _
      _ = st.saved.length + (item :: rest).length := by
          simp only [List.length_cons]
          omega

theorem emitLoop_eq (today : String) (limit : Nat) :
    ∀ (xs : List (String × Link)) (acc : List Item),
      emitLoop today limit acc xs
        = acc ++ ((xs.take (limit - acc.length)).map (fun p => mkItem today p.1 p.2)) := by
  intro xs
  induction xs with
  | nil => intro acc; simp [emitLoop]
  | cons p rest ih =>
    intro acc
    obtain ⟨href, link⟩ := p
    rw [emitLoop]
    split
    · rename_i hle
      rw [Nat.sub_eq_zero_of_le hle]
      simp
    · rename_i hlt
      rw [ih]
      have hpos : limit - acc.length = (limit - (acc.length + 1)) + 1 := by omega
      rw [hpos, List.take_succ_cons]
      simp

theorem get_recent_length_le (resp : Except String (List Link)) (limit : Nat)
    (today : String) :
    (get_recent_transcripts resp limit today).length ≤ limit := by
  cases resp with
  | error e => simp [get_recent_transcripts]
  | ok links =>
    show (emitLoop today limit [] _).length ≤ limit
    rw [emitLoop_eq]
    simp [List.length_take]

theorem scrape_url_eq (url : String) (resp : Except String Page)
    (t : TranscriptRecord) (hs : scrape_transcript url resp = some t) :
    t.url = url := by
  cases resp with
  | error e => simp [scrape_transcript] at hs
  | ok page =>
    obtain ⟨hh, hc⟩ := page
    cases hc with
    | none => simp [scrape_transcript, scrape_core] at hs
    | some ps =>
      simp only [scrape_transcript, scrape_core] at hs
      split at hs
      · exact absurd hs (by simp)
      · have := Option.some.inj hs
        rw [← this]

theorem fname_contains_hash (h : String → String) (t : TranscriptRecord) :
    inStr (urlHash6 h t.url) (generate_filename h t) = true := by
  unfold inStr generate_filename
  have hd : (t.ticker ++ "_" ++ optNatStr t.year ++ "_Q" ++ optNatStr t.quarter
        ++ "_" ++ urlHash6 h t.url ++ ".json").data
      = (t.ticker ++ "_" ++ optNatStr t.year ++ "_Q" ++ optNatStr t.quarter
          ++ "_").data ++ (urlHash6 h t.url).data ++ ".json".data := by
    simp [String.data_append]
  rw [hd]
  exact containsL_of_mid _ _ _

theorem transcript_exists_mono (h : String → String) (u : String)
    (s ext : List String) (hex : transcript_exists h u s = true) :
    transcript_exists h u (s ++ ext) = true := by
  simp only [transcript_exists, List.any_append, Bool.or_eq_true]
  exact Or.inl hex

theorem processItem_store_ext (h : String → String)
    (pages : String → Except String Page) (st : RunResult) (item : Item) :
    ∃ e, (processItem h pages st item).store = st.store ++ e := by
  unfold processItem
  split
  · exact ⟨[], by simp⟩
  · split
    · exact ⟨[], by simp⟩
    · split
      · exact ⟨[], by simp⟩
      · exact ⟨[generate_filename h _], rfl⟩

theorem runLoop_store_ext (h : String → String)
    (pages : String → Except String Page) :
    ∀ (items : List Item) (st : RunResult),
      ∃ ext, (runLoop h pages st items).store = st.store ++ ext := by
  intro items
  induction items with
  | nil => intro st; exact ⟨[], by simp [runLoop]⟩
  | cons item rest ih =>
    intro st
    obtain ⟨ext1, hext1⟩ := ih (processItem h pages st item)
    obtain ⟨e0, he0⟩ := processItem_store_ext h pages st item
    refine ⟨e0 ++ ext1, ?_⟩
    show (runLoop h pages (processItem h pages st item) rest).store = _
    rw [hext1, he0, List.append_assoc]

theorem runLoop_covers (h : String → String)
    (pages : String → Except String Page) :
    ∀ (items : List Item) (st : RunResult), ∀ item ∈ items,
      item.url = "" ∨
      transcript_exists h item.url (runLoop h pages st items).store = true ∨
      scrape_transcript item.url (pages item.url) = none := by
  intro items
  induction items with
  | nil => intro st item hmem; simp at hmem
  | cons it rest ih =>
    intro st item hmem
    have hloop : runLoop h pages st (it :: rest)
        = runLoop h pages (processItem h pages st it) rest := rfl
    rcases List.mem_cons.mp hmem with heq | hrest
    · subst heq
      by_cases hurl : item.url = ""
      · exact Or.inl hurl
      · by_cases hex : transcript_exists h item.url st.store = true
        · right; left
          rw [hloop]
          obtain ⟨ext1, hext1⟩ := runLoop_store_ext h pages rest (processItem h pages st item)
          obtain ⟨e0, he0⟩ := processItem_store_ext h pages st item
          rw [hext1, he0]
          exact transcript_exists_mono h item.url _ ext1
            (transcript_exists_mono h item.url _ e0 hex)
        · cases hscr : scrape_transcript item.url (pages item.url) with
          | none => exact Or.inr (Or.inr rfl)
          | some t =>
            right; left
            rw [hloop]
            have hst' : (processItem h pages st item).store
                = st.store ++ [generate_filename h t] := by
              unfold processItem
              rw [if_neg hurl, if_neg hex, hscr]
            obtain ⟨ext1, hext1⟩ := runLoop_store_ext h pages rest (processItem h pages st item)
            rw [hext1, hst']
            have hfn : inStr (urlHash6 h item.url) (generate_filename h t) = true := by
              have hu : t.url = item.url := scrape_url_eq _ _ _ hscr
              rw [← hu]
              exact fname_contains_hash h t
            simp only [transcript_exists, List.any_append, List.any_cons, List.any_nil,
              Bool.or_eq_true]
            exact Or.inl (Or.inr (Or.inl hfn))
    · rw [hloop]
      exact ih (processItem h pages st it) item hrest

theorem runLoop_skip (h : String → String)
    (pages : String → Except String Page) :
    ∀ (items : List Item) (S : List String) (st : RunResult),
      (∀ f ∈ S, f ∈ st.store) →
      (∀ item ∈ items,
        item.url = "" ∨ transcript_exists h item.url S = true ∨
        scrape_transcript item.url (pages item.url) = none) →
      runLoop h pages st items = st := by
  intro items
  induction items with
  | nil => intro S st _ _; rfl
  | cons it rest ih =>
    intro S st hsub hcov
    have hstep : processItem h pages st it = st := by
      by_cases hurl : it.url = ""
      · simp [processItem, hurl]
      · rcases hcov it (List.mem_cons_self it rest) with h1 | hex | hscr
        · exact absurd h1 hurl
        · have hex' : transcript_exists h it.url st.store = true := by
            rw [transcript_exists, List.any_eq_true]
            obtain ⟨f, hf, hp⟩ := (List.any_eq_true).mp hex
            exact ⟨f, hsub f hf, hp⟩
          simp [processItem, hurl, hex']
        · by_cases hex : transcript_exists h it.url st.store = true
          · simp [processItem, hurl, hex]
          · simp [processItem, hurl, hex, hscr]
    show runLoop h pages (processItem h pages st it) rest = st
    rw [hstep]
    exact ih S st hsub (fun x hx => hcov x (List.mem_cons_of_mem _ hx))

/-! ## Lemmas about the listing dedup (claim C8) -/

theorem findL_mem {α : Type} (p : α → Bool) (l : List α) (a : α)
    (h : findL p l = some a) : a ∈ l := by
  induction l with
  | nil => simp [findL] at h
  | cons b t ih =>
    by_cases hp : p b = true
    · simp [findL, hp] at h
      exact h ▸ List.mem_cons_self b t
    · simp [findL, hp] at h
      exact List.mem_cons_of_mem _ (ih h)

theorem findL_prop {α : Type} (p : α → Bool) (l : List α) (a : α)
    (h : findL p l = some a) : p a = true := by
  induction l with
  | nil => simp [findL] at h
  | cons b t ih =>
    by_cases hp : p b = true
    · simp [findL, hp] at h
      exact h ▸ hp
    · simp [findL, hp] at h
      exact ih h

theorem findL_eq_none {α : Type} (p : α → Bool) (l : List α)
    (h : findL p l = none) : ∀ a ∈ l, p a = false := by
  induction l with
  | nil => intro a ha; simp at ha
  | cons b t ih =>
    intro a ha
    by_cases hp : p b = true
    · simp [findL, hp] at h
    · simp [findL, hp] at h
      rcases List.mem_cons.mp ha with rfl | hat
      · exact Bool.eq_false_iff.mpr hp
      · exact ih h a hat

theorem findL_append {α : Type} (p : α → Bool) (l1 l2 : List α) :
    findL p (l1 ++ l2)
      = match findL p l1 with
        | some a => some a
        | none => findL p l2 := by
  induction l1 with
  | nil => simp [findL]
  | cons a t ih =>
    by_cases hp : p a = true
    · simp [findL, hp]
    · simp [findL, hp, ih]

theorem mem_dedupFirstAux : ∀ (xs seen : List String) (a : String),
    a ∈ dedupFirstAux seen xs ↔ (a ∈ xs ∧ a ∉ seen) := by
  intro xs
  induction xs with
  | nil => intro seen a; simp [dedupFirstAux]
  | cons x t ih =>
    intro seen a
    by_cases hx : x ∈ seen
    · constructor
      · intro h
        have := (ih seen a).mp (by simpa [dedupFirstAux, hx] using h)
        exact ⟨List.mem_cons_of_mem _ this.1, this.2⟩
      · rintro ⟨h1, h2⟩
        have h1' : a ∈ t := by
          rcases List.mem_cons.mp h1 with rfl | h
          · exact absurd hx h2
          · exact h
        simpa [dedupFirstAux, hx] using (ih seen a).mpr ⟨h1', h2⟩
    · constructor
      · intro h
        have h' : a = x ∨ a ∈ dedupFirstAux (x :: seen) t := by
          simpa [dedupFirstAux, hx, List.mem_cons] using h
        rcases h' with rfl | h'
        · exact ⟨List.mem_cons_self _ _, hx⟩
        · have := (ih (x :: seen) a).mp h'
          refine ⟨List.mem_cons_of_mem _ this.1, fun hs => this.2 (List.mem_cons_of_mem _ hs)⟩
      · rintro ⟨h1, h2⟩
        by_cases hax : a = x
        · subst hax
          simp [dedupFirstAux, hx]
        · have h1' : a ∈ t := by
            rcases List.mem_cons.mp h1 with h | h
            · exact absurd h hax
            · exact h
          have hmem : a ∈ dedupFirstAux (x :: seen) t :=
            (ih (x :: seen) a).mpr ⟨h1', by
              intro hs
              rcases List.mem_cons.mp hs with h | h
              · exact hax h
              · exact h2 h⟩
          simp [dedupFirstAux, hx, List.mem_cons]
          exact Or.inr hmem

theorem dedupFirstAux_append : ∀ (xs seen : List String) (x : String),
    dedupFirstAux seen (xs ++ [x])
      = dedupFirstAux seen xs ++ (if x ∈ seen ∨ x ∈ xs then [] else [x]) := by
  intro xs
  induction xs with
  | nil =>
    intro seen x
    by_cases hx : x ∈ seen
    · simp [dedupFirstAux, hx]
    · simp [dedupFirstAux, hx]
  | cons y t ih =>
    intro seen x
    by_cases hy : y ∈ seen
    · have hstep1 : dedupFirstAux seen ((y :: t) ++ [x])
          = dedupFirstAux seen (t ++ [x]) := by
        simp [dedupFirstAux, hy]
      have hstep2 : dedupFirstAux seen (y :: t) = dedupFirstAux seen t := by
        simp [dedupFirstAux, hy]
      rw [hstep1, ih seen x, hstep2]
      congr 1
      by_cases hxx : x ∈ seen ∨ x ∈ t
      · rw [if_pos hxx, if_pos (by
          rcases hxx with h | h
          · exact Or.inl h
          · exact Or.inr (List.mem_cons_of_mem _ h))]
      · rw [if_neg hxx, if_neg (by
          intro hcc
          rcases hcc with h | h
          · exact hxx (Or.inl h)
          · rcases List.mem_cons.mp h with rfl | h
            · exact hxx (Or.inl hy)
            · exact hxx (Or.inr h))]
    · have hstep1 : dedupFirstAux seen ((y :: t) ++ [x])
          = y :: dedupFirstAux (y :: seen) (t ++ [x]) := by
        simp [dedupFirstAux, hy]
      have hstep2 : dedupFirstAux seen (y :: t)
          = y :: dedupFirstAux (y :: seen) t := by
        simp [dedupFirstAux, hy]
      rw [hstep1, ih (y :: seen) x, hstep2, List.cons_append]
      congr 1
      congr 1
      by_cases hxx : x ∈ y :: seen ∨ x ∈ t
      · rw [if_pos hxx, if_pos (by
          rcases hxx with h | h
          · rcases List.mem_cons.mp h with rfl | h
            · exact Or.inr (List.mem_cons_self _ _)
            · exact Or.inl h
          · exact Or.inr (List.mem_cons_of_mem _ h))]
      · rw [if_neg hxx, if_neg (by
          intro hcc
          rcases hcc with h | h
          · exact hxx (Or.inl (List.mem_cons_of_mem _ h))
          · rcases List.mem_cons.mp h with rfl | h
            · exact hxx (Or.inl (List.mem_cons_self _ _))
            · exact hxx (Or.inr h))]

theorem lookupD_map_keys : ∀ (keys : List String) (f : String → Link) (x : String),
    lookupD (keys.map (fun k => (k, f k))) x
      = if x ∈ keys then some (f x) else none := by
  intro keys f x
  induction keys with
  | nil => simp [lookupD]
  | cons k t ih =>
    by_cases hk : k = x
    · subst hk
      simp [lookupD]
    · simp [lookupD, hk, ih, List.mem_cons, Ne.symm hk]

theorem updateD_map_keys (keys : List String) (f : String → Link) (x : String)
    (v : Link) :
    updateD (keys.map (fun k => (k, f k))) x v
      = keys.map (fun k => (k, if k = x then v else f k)) := by
  unfold updateD
  rw [List.map_map]
  apply List.map_congr_left
  intro k _
  by_cases h : k = x
  · subst h
    simp
  · simp [h]

theorem headD_append_left {α : Type} (l1 l2 : List α) (d : α) (h : l1 ≠ []) :
    (l1 ++ l2).headD d = l1.headD d := by
  cases l1 with
  | nil => exact absurd rfl h
  | cons a t => rfl

theorem occsOf_append_single (L : List Link) (l : Link) (x : String) :
    occsOf (L ++ [l]) x = occsOf L x ++ (if l.href = x then [l] else []) := by
  unfold occsOf
  rw [List.filter_append]
  congr 1
  by_cases h : l.href = x <;> simp [h]

theorem filtHrefs_append_single (L : List Link) (l : Link) :
    filtHrefs (L ++ [l]) = filtHrefs L ++ (if l.href = "" then [] else [l.href]) := by
  unfold filtHrefs
  rw [List.map_append, List.filter_append]
  congr 1
  by_cases h : l.href = "" <;> simp [h]

theorem mem_filtHrefs (L : List Link) (x : String) :
    x ∈ filtHrefs L ↔ (x ≠ "" ∧ ∃ l ∈ L, l.href = x) := by
  unfold filtHrefs
  simp [List.mem_filter, List.mem_map]
  constructor
  · rintro ⟨⟨l, hl, he⟩, hne⟩
    exact ⟨hne, l, hl, he⟩
  · rintro ⟨hne, l, hl, he⟩
    exact ⟨⟨l, hl, he⟩, hne⟩

theorem occsOf_ne_nil (L : List Link) (x : String) (h : ∃ l ∈ L, l.href = x) :
    occsOf L x ≠ [] := by
  obtain ⟨l, hl, he⟩ := h
  intro hc
  have hmem : l ∈ occsOf L x := by
    unfold occsOf
    rw [List.mem_filter]
    exact ⟨hl, by simp [he]⟩
  rw [hc] at hmem
  simp at hmem

theorem pickRepD_mem (L : List Link) (x : String) (h : occsOf L x ≠ []) :
    pickRepD L x ∈ occsOf L x := by
  unfold pickRepD
  cases hf : findL (fun l => decide (l.text ≠ "")) (occsOf L x) with
  | some l => exact findL_mem _ _ _ hf
  | none =>
    cases hocc : occsOf L x with
    | nil => exact absurd hocc h
    | cons a t => simp

theorem pickRepD_text_empty (L : List Link) (x : String)
    (h : (pickRepD L x).text = "") :
    findL (fun l => decide (l.text ≠ "")) (occsOf L x) = none := by
  cases hf : findL (fun l => decide (l.text ≠ "")) (occsOf L x) with
  | none => rfl
  | some k =>
    exfalso
    have hp := findL_prop _ _ _ hf
    have hk : pickRepD L x = k := by
      unfold pickRepD
      rw [hf]
    rw [hk] at h
    simp [h] at hp

theorem pickRepD_append_ne (L : List Link) (l : Link) (x : String)
    (hx : x ≠ l.href) : pickRepD (L ++ [l]) x = pickRepD L x := by
  unfold pickRepD
  rw [occsOf_append_single, if_neg (fun h => hx h.symm), List.append_nil]

theorem pickRepD_append_new (L : List Link) (l : Link) (x : String)
    (hx : l.href = x) (hocc : occsOf L x = []) :
    pickRepD (L ++ [l]) x = l := by
  unfold pickRepD
  rw [occsOf_append_single, hocc, if_pos hx]
  by_cases ht : l.text = ""
  · simp [findL, ht]
  · simp [findL, ht]

theorem pickRepD_append_update (L : List Link) (l : Link) (x : String)
    (hx : l.href = x) (ht : l.text ≠ "")
    (hfnone : findL (fun k => decide (k.text ≠ "")) (occsOf L x) = none) :
    pickRepD (L ++ [l]) x = l := by
  unfold pickRepD
  rw [occsOf_append_single, if_pos hx, findL_append, hfnone]
  simp [findL, ht]

theorem pickRepD_append_keep (L : List Link) (l : Link) (x : String)
    (hx : l.href = x) (ht : l.text = "") (hne : occsOf L x ≠ []) :
    pickRepD (L ++ [l]) x = pickRepD L x := by
  unfold pickRepD
  rw [occsOf_append_single, if_pos hx, findL_append]
  cases hf : findL (fun k => decide (k.text ≠ "")) (occsOf L x) with
  | some k => simp
  | none =>
    have hsingle : findL (fun k => decide (k.text ≠ "")) [l] = none := by
      simp [findL, ht]
    rw [hsingle]
    exact headD_append_left _ _ _ hne

theorem buildDict_eq_spec : ∀ links : List Link,
    buildDict links = dedupPrefSpec links := by
  intro links
  induction links using List.reverseRecOn with
  | nil => rfl
  | append_singleton L l ih =>
    have hfold : buildDict (L ++ [l]) = dictStep (buildDict L) l := by
      unfold buildDict
      rw [List.foldl_append]
      rfl
    rw [hfold, ih]
    unfold dictStep
    by_cases hhref : l.href = ""
    · rw [if_pos hhref]
      unfold dedupPrefSpec orderedKeys
      rw [filtHrefs_append_single, if_pos hhref, List.append_nil]
      apply List.map_congr_left
      intro x hx
      have hxmem : x ∈ filtHrefs L := ((mem_dedupFirstAux _ [] x).mp hx).1
      have hxne : x ≠ l.href := by
        rw [hhref]
        exact ((mem_filtHrefs L x).mp hxmem).1
      rw [pickRepD_append_ne L l x hxne]
    · rw [if_neg hhref]
      have hlk := lookupD_map_keys (orderedKeys L) (fun x => pickRepD L x) l.href
      by_cases hk : l.href ∈ orderedKeys L
      · have hcur : lookupD (dedupPrefSpec L) l.href = some (pickRepD L l.href) := by
          show lookupD ((orderedKeys L).map (fun x => (x, pickRepD L x))) l.href = _
          rw [hlk, if_pos hk]
        have hkeys : orderedKeys (L ++ [l]) = orderedKeys L := by
          unfold orderedKeys
          rw [filtHrefs_append_single, if_neg hhref, dedupFirstAux_append]
          have hmem : l.href ∈ filtHrefs L := ((mem_dedupFirstAux _ [] _).mp hk).1
          simp [hmem]
        have hoccne : occsOf L l.href ≠ [] :=
          occsOf_ne_nil L l.href ((mem_filtHrefs L l.href).mp
            ((mem_dedupFirstAux _ [] _).mp hk).1).2
        rw [hcur]
        show (if l.text ≠ "" ∧ (pickRepD L l.href).text = "" then
            updateD (dedupPrefSpec L) l.href l else dedupPrefSpec L)
          = dedupPrefSpec (L ++ [l])
        by_cases hcond : l.text ≠ "" ∧ (pickRepD L l.href).text = ""
        · rw [if_pos hcond]
          have hfnone : findL (fun k => decide (k.text ≠ "")) (occsOf L l.href) = none :=
            pickRepD_text_empty L l.href hcond.2
          show updateD ((orderedKeys L).map (fun x => (x, pickRepD L x))) l.href l
            = dedupPrefSpec (L ++ [l])
          rw [updateD_map_keys]
          unfold dedupPrefSpec
          rw [hkeys]
          apply List.map_congr_left
          intro x hx
          by_cases hxe : x = l.href
          · rw [if_pos hxe]
            have hupd := pickRepD_append_update L l x hxe.symm hcond.1
              (by rw [hxe]; exact hfnone)
            rw [hupd]
          · rw [if_neg hxe, pickRepD_append_ne L l x hxe]
        · rw [if_neg hcond]
          show dedupPrefSpec L = dedupPrefSpec (L ++ [l])
          unfold dedupPrefSpec
          rw [hkeys]
          apply List.map_congr_left
          intro x hx
          by_cases hxe : x = l.href
          · by_cases ht : l.text = ""
            · rw [pickRepD_append_keep L l x hxe.symm ht (by rw [hxe]; exact hoccne)]
            · have hpt : (pickRepD L x).text ≠ "" := fun hc =>
                hcond ⟨ht, by rw [← hxe]; exact hc⟩
              cases hf : findL (fun k => decide (k.text ≠ "")) (occsOf L x) with
              | none =>
                exfalso
                have hall := findL_eq_none _ _ hf
                have hmem := pickRepD_mem L x (by rw [hxe]; exact hoccne)
                have hfalse := hall _ hmem
                simp at hfalse
                exact hpt hfalse
              | some k =>
                have h1 : pickRepD L x = k := by
                  unfold pickRepD
                  rw [hf]
                have h2 : pickRepD (L ++ [l]) x = k := by
                  unfold pickRepD
                  rw [occsOf_append_single, if_pos hxe.symm, findL_append, hf]
                rw [h1, h2]
          · rw [pickRepD_append_ne L l x hxe]
      · have hcur : lookupD (dedupPrefSpec L) l.href = none := by
          show lookupD ((orderedKeys L).map (fun x => (x, pickRepD L x))) l.href = _
          rw [hlk, if_neg hk]
        rw [hcur]
        have hnotin : l.href ∉ filtHrefs L := fun hc =>
          hk ((mem_dedupFirstAux _ [] _).mpr ⟨hc, by simp⟩)
        have hkeys : orderedKeys (L ++ [l]) = orderedKeys L ++ [l.href] := by
          unfold orderedKeys
          rw [filtHrefs_append_single, if_neg hhref, dedupFirstAux_append]
          simp [hnotin]
        have hocc0 : occsOf L l.href = [] := by
          cases hocc : occsOf L l.href with
          | nil => rfl
          | cons a t =>
            exfalso
            have ha : a ∈ occsOf L l.href := by
              rw [hocc]
              exact List.mem_cons_self _ _
            have hmf := List.mem_filter.mp ha
            apply hnotin
            rw [mem_filtHrefs]
            exact ⟨hhref, a, hmf.1, by simpa using hmf.2⟩
        show dedupPrefSpec L ++ [(l.href, l)] = dedupPrefSpec (L ++ [l])
        unfold dedupPrefSpec
        rw [hkeys, List.map_append]
        congr 1
        · apply List.map_congr_left
          intro x hx
          have hxe : x ≠ l.href := fun hc => hk (hc ▸ hx)
          rw [pickRepD_append_ne L l x hxe]
        · simp only [List.map_cons, List.map_nil]
          rw [pickRepD_append_new L l l.href rfl hocc0]

/-! ## Claim theorems -/

/-- Claim C2 (confirmed).  A second run with the same listing result, the
same page contents and the same hash function, against the store produced
by a first run, saves no new files and leaves the store unchanged — because
the filename written for a saved URL contains exactly the 6-character hash
prefix that `transcript_exists` later searches for (second conjunct). -/
theorem spec_c2 : ∀ (h : String → String) (pages : String → Except String Page)
    (lresp : Except String (List Link)) (today : String) (limit : Nat)
    (tickers : Option (List String)) (store : List String),
    run h pages lresp today limit tickers
        (run h pages lresp today limit tickers store).store
      = ⟨(run h pages lresp today limit tickers store).store, []⟩ ∧
    ∀ t : TranscriptRecord,
      inStr (urlHash6 h t.url) (generate_filename h t) = true := by
  intro h pages lresp today limit tickers store
  constructor
  · have hcov := runLoop_covers h pages
      ((filterTickers tickers (get_recent_transcripts lresp (limit * 2) today)).take limit)
      ⟨store, []⟩
    show runLoop h pages
        ⟨(run h pages lresp today limit tickers store).store, []⟩
        ((filterTickers tickers (get_recent_transcripts lresp (limit * 2) today)).take limit)
      = _
    exact runLoop_skip h pages _
      (run h pages lresp today limit tickers store).store _
      (fun f hf => hf) hcov
  · exact fun t => fname_contains_hash h t

/-- Claim C10 (confirmed).  `run` saves at most `limit` files even though
it requests up to `limit * 2` listing candidates. -/
theorem spec_c10 : ∀ (h : String → String) (pages : String → Except String Page)
    (lresp : Except String (List Link)) (today : String) (limit : Nat)
    (tickers : Option (List String)) (store : List String),
    (run h pages lresp today limit tickers store).saved.length ≤ limit ∧
    (get_recent_transcripts lresp (limit * 2) today).length ≤ 2 * limit := by
  intro h pages lresp today limit tickers store
  constructor
  · have h1 := runLoop_saved_le h pages
      ((filterTickers tickers (get_recent_transcripts lresp (limit * 2) today)).take limit)
      ⟨store, []⟩
    have h2 : ((filterTickers tickers (get_recent_transcripts lresp (limit * 2) today)).take
        limit).length ≤ limit := List.length_take_le _ _
    simp only [List.length_nil] at h1
    exact le_trans (le_trans h1 (by omega)) h2
  · have h3 := get_recent_length_le lresp (limit * 2) today
    omega

/-- Claim C1 (corrected).  The section state never returns to `intro`, and
once it is `qa` every subsequent nonempty node is appended to the `qa`
accumulator *provided* no such node matches a prepared/opening-remarks
marker without also matching a Q&A marker; the counterexample shows the
original unconditional monotonicity claim fails (a later
prepared-remarks node reverts `qa` to `prepared`). -/
theorem spec_c1_amended : ∀ (st : ScrapeAcc) (ts : List String),
    (st.sec ≠ Sect.intro → (ts.foldl paraStep st).sec ≠ Sect.intro) ∧
    (st.sec = Sect.qa →
      (∀ t ∈ ts, t ≠ "" → (isQaMarker t = true ∨ isPreparedMarker t = false)) →
      (ts.foldl paraStep st).sec = Sect.qa ∧
      (ts.foldl paraStep st).qa = st.qa ++ ts.filter (fun t => decide (t ≠ ""))) := by
  intro st ts
  exact ⟨fun h => foldl_paraStep_ne_intro ts st h,
         fun h hm => foldl_paraStep_qa ts st h hm⟩

/-- Claim C1, witness for the amended theorem at a concrete state and node
list. -/
theorem spec_c1_witness :
    (⟨Sect.qa, [], [], []⟩ : ScrapeAcc).sec = Sect.qa ∧
    ((["Hello operator"].foldl paraStep ⟨Sect.qa, [], [], []⟩).sec = Sect.qa ∧
     (["Hello operator"].foldl paraStep ⟨Sect.qa, [], [], []⟩).qa
        = [] ++ ["Hello operator"].filter (fun t => decide (t ≠ ""))) :=
  ⟨rfl, (spec_c1_amended ⟨Sect.qa, [], [], []⟩ ["Hello operator"]).2 rfl (by decide)⟩

/-- Claim C1, counterexample to the claim as stated: the first node matches
a Q&A marker, yet the second node (a prepared-remarks heading) is not
appended to the `qa` accumulator and the state reverts to `prepared`. -/
theorem spec_c1_counterexample :
    isQaMarker "Questions and Answers:" = true ∧
    (processParagraphs ["Questions and Answers:", "Prepared Remarks:"]).sec
      = Sect.prepared ∧
    "Prepared Remarks:" ∉
      (processParagraphs ["Questions and Answers:", "Prepared Remarks:"]).qa := by
  decide

/-- Claim C3 (corrected).  When the detail fetch for a target fails, the
loop continues with the remaining targets unchanged — but no error counter
exists anywhere in the loop state, and the final status line reports only
the saved count. -/
theorem spec_c3_amended : ∀ (h : String → String)
    (pages : String → Except String Page) (st : RunResult) (item : Item)
    (rest : List Item),
    scrape_transcript item.url (pages item.url) = none →
    (runLoop h pages st (item :: rest) = runLoop h pages st rest ∧
     ∀ n : Nat, runReport n
        = "\nScraping complete. Saved " ++ toString n ++ " new transcripts.") := by
  intro h pages st item rest hfail
  constructor
  · unfold runLoop
    rw [List.foldl_cons]
    have hstep : processItem h pages st item = st := by
      unfold processItem
      split
      · rfl
      · split
        · rfl
        · rw [hfail]
    rw [hstep]
  · intro n
    rfl

/-- Claim C3, witness for the amended theorem at a concrete failing target. -/
theorem spec_c3_witness :
    scrape_transcript "http://x" ((fun _ => Except.error "e") "http://x") = none ∧
    (runLoop (fun _ => "h") (fun _ : String => Except.error "e") ⟨[], []⟩
        [⟨"http://x", "t", "T", "d"⟩]
      = runLoop (fun _ => "h") (fun _ : String => Except.error "e") ⟨[], []⟩ [] ∧
     ∀ n : Nat, runReport n
        = "\nScraping complete. Saved " ++ toString n ++ " new transcripts.") :=
  ⟨rfl, spec_c3_amended (fun _ => "h") (fun _ => Except.error "e") ⟨[], []⟩
    ⟨"http://x", "t", "T", "d"⟩ [] rfl⟩

/-- Claim C3, counterexample to the claim as stated: a run whose single
target's fetch fails ends with no error tally anywhere — the run state
holds only store and saved files, and the final report (for the 0 saved
files) does not contain the errored count 1. -/
theorem spec_c3_counterexample :
    run (fun _ => "h") (fun _ => Except.error "e")
        (Except.ok [⟨"/earnings/call-transcript/x", "T"⟩]) "2026-01-01" 1 none []
      = ⟨[], []⟩ ∧
    scrape_transcript (pyUrljoin "/earnings/call-transcript/x") (Except.error "e")
      = none ∧
    inStr "1" (runReport 0) = false := by
  decide

/-- Claim C4 (confirmed).  With a content area present, the scrape returns
`None` when the double-newline join of the node texts is empty or shorter
than 500 characters, and is not rejected when it has 500 characters or
more. -/
theorem spec_c4 : ∀ (url : String) (h1 : Option String) (ps : List String),
    (joinNN (processParagraphs ps).parts = "" →
      scrape_transcript url (Except.ok ⟨h1, some ps⟩) = none) ∧
    ((joinNN (processParagraphs ps).parts).length < 500 →
      scrape_transcript url (Except.ok ⟨h1, some ps⟩) = none) ∧
    (500 ≤ (joinNN (processParagraphs ps).parts).length →
      (scrape_transcript url (Except.ok ⟨h1, some ps⟩)).isSome = true) := by
  intro url h1 ps
  refine ⟨?_, ?_, ?_⟩
  · intro h
    simp [scrape_transcript, scrape_core, h]
  · intro h
    simp [scrape_transcript, scrape_core, h]
  · intro h
    have hne : joinNN (processParagraphs ps).parts ≠ "" := by
      intro he
      rw [he] at h
      simp [String.length] at h
    simp [scrape_transcript, scrape_core, hne, Nat.not_lt.mpr h]

/-- Claim C4, witness at the 499/500 boundary. -/
theorem spec_c4_witness :
    scrape_transcript "u" (Except.ok ⟨none, some [String.mk (List.replicate 499 'a')]⟩)
      = none ∧
    (scrape_transcript "u"
        (Except.ok ⟨none, some [String.mk (List.replicate 500 'a')]⟩)).isSome = true :=
  ⟨(spec_c4 "u" none [String.mk (List.replicate 499 'a')]).2.1 (by decide),
   (spec_c4 "u" none [String.mk (List.replicate 500 'a')]).2.2 (by decide)⟩

/-- Claim C5 (confirmed).  `transcript_exists` is true exactly when some
stored filename contains the 6-character hash prefix of the URL as a
substring, and in that case the run loop leaves its state untouched for
that target, whatever its ticker/year/quarter guess. -/
theorem spec_c5 : ∀ (h : String → String) (u : String) (store : List String),
    (transcript_exists h u store = true ↔
      ∃ f ∈ store, inStr (urlHash6 h u) f = true) ∧
    (∀ (pages : String → Except String Page) (st : RunResult) (item : Item),
      item.url = u → transcript_exists h u st.store = true →
      processItem h pages st item = st) := by
  intro h u store
  constructor
  · simp [transcript_exists, List.any_eq_true]
  · intro pages st item hurl hex
    subst hurl
    by_cases he : item.url = ""
    · simp [processItem, he]
    · simp [processItem, he, hex]

/-- Claim C5, witness mirroring the spec's dedup example: the store holds
`TICK_2024_Q1_ab12cd.json` and the new target's URL hashes to `ab12cd…`. -/
theorem spec_c5_witness :
    transcript_exists (fun _ => "ab12cdef") "http://new"
      ["TICK_2024_Q1_ab12cd.json"] = true ∧
    processItem (fun _ => "ab12cdef") (fun _ => Except.error "e")
        ⟨["TICK_2024_Q1_ab12cd.json"], []⟩ ⟨"http://new", "Other (OTHR) Q3 2025", "OTHR", "2025-01-01"⟩
      = ⟨["TICK_2024_Q1_ab12cd.json"], []⟩ :=
  ⟨(spec_c5 (fun _ => "ab12cdef") "http://new" ["TICK_2024_Q1_ab12cd.json"]).1.mpr
      ⟨"TICK_2024_Q1_ab12cd.json", by decide, by decide⟩,
   (spec_c5 (fun _ => "ab12cdef") "http://new" ["TICK_2024_Q1_ab12cd.json"]).2
      (fun _ => Except.error "e") ⟨["TICK_2024_Q1_ab12cd.json"], []⟩
      ⟨"http://new", "Other (OTHR) Q3 2025", "OTHR", "2025-01-01"⟩ rfl (by decide)⟩

/-- Claim C6 (confirmed).  The title
`"Apple (AAPL) Q4 2024 Earnings Call Transcript"` yields ticker `AAPL`,
company `Apple`, quarter 4 and year 2024. -/
theorem spec_c6 :
    (scrape_transcript "u"
        (Except.ok ⟨some "Apple (AAPL) Q4 2024 Earnings Call Transcript",
          some [String.mk (List.replicate 500 'a')]⟩)).map
      (fun r => (r.ticker, r.company, r.quarter, r.year))
    = some ("AAPL", "Apple", some 4, some 2024) := by
  decide

/-- Claim C7 (confirmed).  A transport error while fetching the listing
page yields the empty list. -/
theorem spec_c7 : ∀ (e : String) (limit : Nat) (today : String),
    get_recent_transcripts (Except.error e) limit today = [] := by
  intro e limit today
  rfl

/-- Claim C8 (confirmed).  The listing lister equals the spec-side
description: one entry per URL of the pattern-filtered links, represented
by the first occurrence with non-empty text (else the first occurrence),
in document order of first occurrence, truncated to at most `limit`
entries. -/
theorem spec_c8 : ∀ (links : List Link) (limit : Nat) (today : String),
    get_recent_transcripts (Except.ok links) limit today
      = ((dedupPrefSpec
            (links.filter (fun l => inStr "/earnings/call-transcript" l.href))).take
          limit).map (fun p => mkItem today p.1 p.2) ∧
    (get_recent_transcripts (Except.ok links) limit today).length ≤ limit := by
  intro links limit today
  constructor
  · show emitLoop today limit []
        (buildDict (links.filter (fun l => inStr "/earnings/call-transcript" l.href)))
      = _
    rw [buildDict_eq_spec, emitLoop_eq]
    simp
  · exact get_recent_length_le _ _ _

/-- Claim C9 (code bug).  Evaluating the code at the failing input: a title
with no `Q<n> <yyyy>` pattern still produces a persisted record (ticker
nonempty), but its filename is `AAPL_None_QNone_<hash6>.json` — Python
`None` rendered textually — not the `quarter=0` / current-year fallback the
spec describes, because `scrape_transcript` always stores the `year` and
`quarter` keys (possibly as `None`), so `dict.get`'s defaults in
`generate_filename` never apply. -/
theorem spec_c9_eval :
    (scrape_transcript "http://u"
        (Except.ok ⟨some "Apple (AAPL) Earnings Call Transcript",
          some [String.mk (List.replicate 500 'a')]⟩)).map
      (fun r => (r.ticker, r.year, r.quarter,
        generate_filename (fun _ => "9f86d081884c") r))
    = some ("AAPL", none, none, "AAPL_None_QNone_9f86d0.json") := by
  decide

end Scraper

/-! ## Concrete sanity checks of the embedding -/
example :
    Scraper.findTicker "Apple (AAPL) Q4 2024 Earnings Call Transcript" = some "AAPL" := by
  decide

example :
    Scraper.findCompanyS "Apple (AAPL) Q4 2024 Earnings Call Transcript" = some "Apple" := by
  decide

example :
    Scraper.findQY "Apple (AAPL) Q4 2024 Earnings Call Transcript" = some (4, 2024) := by
  decide

example :
    (Scraper.processParagraphs ["Questions and Answers:", "Prepared Remarks:"]).sec
      = Scraper.Sect.prepared := by
  decide

example :
    Scraper.buildDict
        [⟨"/a", ""⟩, ⟨"/b", "B1"⟩, ⟨"/a", "A2"⟩, ⟨"/a", "A3"⟩, ⟨"/b", ""⟩]
      = [("/a", ⟨"/a", "A2"⟩), ("/b", ⟨"/b", "B1"⟩)] := by
  decide

example :
    Scraper.dedupPrefSpec
        [⟨"/a", ""⟩, ⟨"/b", "B1"⟩, ⟨"/a", "A2"⟩, ⟨"/a", "A3"⟩, ⟨"/b", ""⟩]
      = [("/a", ⟨"/a", "A2"⟩), ("/b", ⟨"/b", "B1"⟩)] := by
  decide

example :
    Scraper.generate_filename (fun _ => "9f86d081884c")
        { ticker := "AAPL", company := "Apple", title := "t", year := none,
          quarter := none, url := "u", transcript := "x",
          prepared_remarks := "", qa_section := "", source := "motley-fool",
          word_count := 1 }
      = "AAPL_None_QNone_9f86d0.json" := by
  decide

example :
    Scraper.transcript_exists (fun _ => "ab12cdef") "http://new"
        ["TICK_2024_Q1_ab12cd.json"] = true := by
  decide

example :
    Scraper.get_recent_transcripts
        (Except.ok [⟨"/earnings/call-transcript/x", "Fool (TICK) Q1 2026"⟩]) 2 "2026-01-01"
      = [{ url := "https://www.fool.com/earnings/call-transcript/x",
           title := "Fool (TICK) Q1 2026", ticker := "TICK", date := "2026-01-01" }] := by
  decide

example :
    Scraper.run (fun _ => "h") (fun _ => Except.error "e")
        (Except.ok [⟨"/earnings/call-transcript/x", "T"⟩]) "2026-01-01" 1 none []
      = ⟨[], []⟩ := by
  decide

example :
    Scraper.slugFromHref "/2025/12/30/unifirst-unf-q1-2026-earnings-call-transcript/"
      = "Unifirst Unf Q1 2026 Earnings Call Transcript" := by
  decide

example :
    Scraper.mkItem "2026-01-01" "/2025/12/30/some-transcript/" ⟨"/2025/12/30/some-transcript/", ""⟩
      = { url := "https://www.fool.com/2025/12/30/some-transcript/",
          title := "Some Transcript", ticker := "UNKNOWN", date := "2025-12-30" } := by
  decide
